import Mathlib

/-!
Shallow embedding of `stable_vector<T, ChunkSize>` (src/stable_vector.h).

The container stores its elements in fixed-capacity chunks
(`boost::container::static_vector<T, ChunkSize>`); the chunk index
`m_chunks` is a `std::vector<std::unique_ptr<chunk_type>>`.  We model a
chunk as its heap identity (`id`, standing for the address returned by
`make_unique`) together with its element list, and the container as the
list of chunks.  Allocation is modelled by threading a fresh-address
supply `s : Nat` through every operation that may call `make_unique`;
each allocation uses the current supply value as the new chunk's address
and increments the supply.  `ChunkSize` is the parameter `C : Nat`
(the C++ template restricts it to powers of two, hence `C ≥ 1`).
-/

namespace SVM

structure Chunk (α : Type) where
  id : Nat
  data : List α
deriving DecidableEq

/-- The container: `m_chunks` mirrors the member
`std::vector<std::unique_ptr<chunk_type>> m_chunks;`. -/
structure stable_vector (α : Type) where
  m_chunks : List (Chunk α)
deriving DecidableEq

variable {α : Type}

/-- Default construction: `stable_vector() = default` — empty chunk index. -/
def mk_empty : stable_vector α := ⟨[]⟩

/-- `bool empty() const { return m_chunks.size() == 0; }` -/
def empty (v : stable_vector α) : Bool := v.m_chunks.length == 0

/-- `size_type size() const { return empty() ? 0 : (m_chunks.size() - 1) * ChunkSize + m_chunks.back()->size(); }` -/
def size (C : Nat) (v : stable_vector α) : Nat :=
  if empty v then 0
  else (v.m_chunks.length - 1) * C + (v.m_chunks.getLastD ⟨0, []⟩).data.length

/-- `size_type capacity() const { return m_chunks.size() * ChunkSize; }` -/
def capacity (C : Nat) (v : stable_vector α) : Nat := v.m_chunks.length * C

/-- `void add_chunk() { m_chunks.emplace_back(std::make_unique<chunk_type>()); }`
The fresh `make_unique` allocation gets the next free address `s`. -/
def add_chunk (v : stable_vector α) (s : Nat) : stable_vector α × Nat :=
  (⟨v.m_chunks ++ [⟨s, []⟩]⟩, s + 1)

/-- Appends `x` to the last chunk's storage in place
(`m_chunks.back()->push_back(x)`): the chunk keeps its address, only its
element list grows. On an empty index this does nothing (the C++ caller
`last_chunk()` guarantees non-emptiness before pushing). -/
def append_back (x : α) : List (Chunk α) → List (Chunk α)
  | [] => []
  | [c] => [⟨c.id, c.data ++ [x]⟩]
  | c :: c' :: rest => c :: append_back x (c' :: rest)

/-- The growth test inside `last_chunk()`:
`m_chunks.empty() || m_chunks.back()->size() == ChunkSize`. -/
def needs_chunk (C : Nat) (v : stable_vector α) : Bool :=
  v.m_chunks.isEmpty || (v.m_chunks.getLastD ⟨0, []⟩).data.length == C

/-- `void push_back(const T& t) { last_chunk().push_back(t); }` where
`last_chunk()` first calls `add_chunk()` when the index is empty or the
last chunk is full. -/
def push_back (C : Nat) (x : α) (v : stable_vector α) (s : Nat) :
    stable_vector α × Nat :=
  let p := if needs_chunk C v then add_chunk v s else (v, s)
  (⟨append_back x p.1.m_chunks⟩, p.2)

/-- `emplace_back(args...)` follows the same growth path as `push_back`
and appends the element constructed from `args`; with value semantics it
coincides with `push_back` of the constructed value. -/
def emplace_back (C : Nat) (x : α) (v : stable_vector α) (s : Nat) :
    stable_vector α × Nat :=
  push_back C x v s

/-- A sequence of `push_back` calls, threading the allocation supply. -/
def pushList (C : Nat) (xs : List α) (v : stable_vector α) (s : Nat) :
    stable_vector α × Nat :=
  match xs with
  | [] => (v, s)
  | x :: rest =>
      let p := push_back C x v s
      pushList C rest p.1 p.2

/-- The loop body of `reserve`:
`for (difference_type i = new_capacity - initial_capacity; i > 0; i -= ChunkSize) add_chunk();`
The loop runs at most `i₀` iterations when `C ≥ 1` (each step decreases
`i` by `C`), so fuel `i₀.toNat` never truncates it; for `C = 0` the C++
loop would not terminate, a case excluded by the power-of-two
`static_assert` on `ChunkSize`. -/
def reserve_go (C : Nat) : Nat → Int → stable_vector α × Nat → stable_vector α × Nat
  | 0, _, p => p
  | fuel + 1, i, p =>
      if 0 < i then reserve_go C fuel (i - (C : Int)) (add_chunk p.1 p.2) else p

/-- `void reserve(size_type new_capacity)`.  The C++ subtraction
`new_capacity - initial_capacity` is done in `size_type` and converted
to the signed `difference_type`, which for realistic magnitudes equals
the mathematical difference, modelled as `Int` subtraction. -/
def reserve (C : Nat) (new_capacity : Nat) (v : stable_vector α) (s : Nat) :
    stable_vector α × Nat :=
  let i : Int := (new_capacity : Int) - (capacity C v : Int)
  reserve_go C i.toNat i (v, s)

/-- `operator[](i)`: `return (*m_chunks[i / ChunkSize])[i % ChunkSize];`
Out-of-range access is undefined behaviour in C++; the model returns
`none` there. -/
def nth (C : Nat) (v : stable_vector α) (i : Nat) : Option α :=
  match v.m_chunks.get? (i / C) with
  | some ch => ch.data.get? (i % C)
  | none => none

/-- The address identity of the slot holding logical index `i`: the
chunk's heap address paired with the offset inside the chunk, exactly
the data `operator[]` uses to form the reference. -/
def slot (C : Nat) (v : stable_vector α) (i : Nat) : Option (Nat × Nat) :=
  (v.m_chunks.get? (i / C)).map (fun ch => (ch.id, i % C))

/-- `at(i)`: `if (i >= size()) throw std::out_of_range("stable_vector::at"); return operator[](i);`
The function performs no mutation, so it is modelled as a pure read. -/
def at' (C : Nat) (v : stable_vector α) (i : Nat) : Except String (Option α) :=
  if size C v ≤ i then Except.error "stable_vector::at"
  else Except.ok (nth C v i)

/-- `operator==`: `size() == c.size() && std::equal(cbegin(), cend(), c.cbegin())`;
`std::equal` dereferences both cursors at logical indices `0..size()-1`.
Element `operator==` on `T` is modelled as decidable equality. -/
def op_eq (C : Nat) [DecidableEq α] (v w : stable_vector α) : Bool :=
  decide (size C v = size C w) &&
    (List.range (size C v)).all (fun i => decide (nth C v i = nth C w i))

/-- `operator!=`: `return !operator==(c);` -/
def op_ne (C : Nat) [DecidableEq α] (v w : stable_vector α) : Bool :=
  !op_eq C v w

/-- The copy constructor's loop:
`for (const auto& chunk : other.m_chunks) m_chunks.emplace_back(std::make_unique<chunk_type>(*chunk));`
Every clone is a fresh allocation with the source chunk's elements. -/
def clone_chunks : List (Chunk α) → Nat → List (Chunk α) × Nat
  | [], s => ([], s)
  | ch :: rest, s =>
      let p := clone_chunks rest (s + 1)
      (⟨s, ch.data⟩ :: p.1, p.2)

/-- `stable_vector(const stable_vector& other)` — deep clone. -/
def copy_ctor (v : stable_vector α) (s : Nat) : stable_vector α × Nat :=
  let p := clone_chunks v.m_chunks s
  (⟨p.1⟩, p.2)

/-- `stable_vector(stable_vector&& other) : m_chunks(std::move(other.m_chunks))`.
Returns (the new container, the moved-from source): moving from a
`std::vector` leaves it empty. -/
def move_ctor (v : stable_vector α) : stable_vector α × stable_vector α :=
  (⟨v.m_chunks⟩, ⟨[]⟩)

/-- `operator=(stable_vector v) { swap(v); return *this; }` — copy-and-swap:
for an lvalue argument the by-value parameter is copy-constructed, then
swapped into the target; the target's old chunks die with the temporary. -/
def op_assign (_target : stable_vector α) (source : stable_vector α) (s : Nat) :
    stable_vector α × Nat :=
  copy_ctor source s

/-- The Chunk Index invariant (spec §3): every chunk except possibly the
last has exactly `C` elements, and the last has at most `C`. -/
def chunks_inv (C : Nat) : List (Chunk α) → Bool
  | [] => true
  | [c] => c.data.length ≤ C
  | c :: c' :: rest => (c.data.length == C) && chunks_inv C (c' :: rest)

/-- All chunk addresses in a container. -/
def chunk_ids (v : stable_vector α) : List Nat := v.m_chunks.map Chunk.id

/-- The allocation supply is valid for a container when it exceeds every
live chunk address. -/
def supply_ok (v : stable_vector α) (s : Nat) : Bool :=
  v.m_chunks.all (fun c => c.id < s)

/-- `iterator begin() { return {this, 0}; }` — the cursor's
`m_index`; the `m_container` pointer is modelled by handing the current
container to `it_deref`. -/
def begin_it (_v : stable_vector α) : Nat := 0

/-- `iterator end() { return {this, size()}; }` -/
def end_it (C : Nat) (v : stable_vector α) : Nat := size C v

/-- `operator*() { return (*m_container)[m_index]; }` — dereference goes
through the container at the time of the dereference. -/
def it_deref (C : Nat) (v : stable_vector α) (it : Nat) : Option α :=
  nth C v it

/-- `difference_type operator-(it)` — signed distance of the indices. -/
def iter_sub (a b : Nat) : Int := (a : Int) - (b : Int)

/-- One `begin()`-to-`end()` traversal: advance with `++` and collect
`*it` until the cursor equals `end()`.  `fuel` bounds the walk; the
traversals below always get fuel `size`, which is exact. -/
def iter_walk (C : Nat) (v : stable_vector α) : Nat → Nat → List (Option α)
  | 0, _ => []
  | fuel + 1, it =>
      if it = end_it C v then []
      else it_deref C v it :: iter_walk C v fuel (it + 1)

/-- The element sequence seen by a full iteration. -/
def iter_list (C : Nat) (v : stable_vector α) : List (Option α) :=
  iter_walk C v (size C v) 0

/-- The container's logical element sequence `v[0], …, v[size()-1]`. -/
def elements (C : Nat) (v : stable_vector α) : List (Option α) :=
  (List.range (size C v)).map (nth C v)

end SVM

namespace SVM

variable {α : Type}

/-! ### Basic structural lemmas -/

theorem size_concat (C : Nat) (l : List (Chunk α)) (c : Chunk α) :
    size C (⟨l ++ [c]⟩ : stable_vector α) = l.length * C + c.data.length := by
  simp [size, empty, List.getLastD_concat]

theorem append_back_concat (x : α) (c : Chunk α) :
    ∀ l : List (Chunk α), append_back x (l ++ [c]) = l ++ [⟨c.id, c.data ++ [x]⟩]
  | [] => rfl
  | [_] => rfl
  | a :: b :: t => by
      have ih := append_back_concat x c (b :: t)
      simp only [List.cons_append, append_back, List.append_eq] at ih ⊢
      rw [ih]

theorem needs_chunk_concat (C : Nat) (l : List (Chunk α)) (c : Chunk α) :
    needs_chunk C (⟨l ++ [c]⟩ : stable_vector α) = (c.data.length == C) := by
  simp [needs_chunk, List.getLastD_concat]

theorem push_back_nil (C : Nat) (x : α) (s : Nat) :
    push_back C x (⟨[]⟩ : stable_vector α) s = (⟨[⟨s, [x]⟩]⟩, s + 1) := rfl

theorem push_back_full (C : Nat) (x : α) (l : List (Chunk α)) (c : Chunk α) (s : Nat)
    (h : c.data.length = C) :
    push_back C x (⟨l ++ [c]⟩ : stable_vector α) s =
      (⟨(l ++ [c]) ++ [⟨s, [x]⟩]⟩, s + 1) := by
  have hb : needs_chunk C (⟨l ++ [c]⟩ : stable_vector α) = true := by
    rw [needs_chunk_concat]; simp [h]
  simp only [push_back, hb, if_pos, add_chunk]
  have := append_back_concat x (⟨s, []⟩ : Chunk α) (l ++ [c])
  simp only [this]
  rfl

theorem push_back_notfull (C : Nat) (x : α) (l : List (Chunk α)) (c : Chunk α) (s : Nat)
    (h : c.data.length ≠ C) :
    push_back C x (⟨l ++ [c]⟩ : stable_vector α) s =
      (⟨l ++ [⟨c.id, c.data ++ [x]⟩]⟩, s) := by
  have hb : needs_chunk C (⟨l ++ [c]⟩ : stable_vector α) = false := by
    rw [needs_chunk_concat]; simp [h]
  simp only [push_back, hb, Bool.false_eq_true, if_false]
  rw [append_back_concat]

theorem chunks_inv_concat (C : Nat) :
    ∀ (l : List (Chunk α)) (c : Chunk α),
      chunks_inv C (l ++ [c]) =
        ((l.all fun c' => c'.data.length == C) && decide (c.data.length ≤ C))
  | [], c => by simp [chunks_inv]
  | [a], c => by simp [chunks_inv]
  | a :: b :: t, c => by
      have ih := chunks_inv_concat C (b :: t) c
      simp only [List.cons_append, chunks_inv, List.append_eq] at ih ⊢
      rw [ih]
      simp [Bool.and_assoc]

theorem reserve_go_of_nonpos (C : Nat) (fuel : Nat) (i : Int)
    (p : stable_vector α × Nat) (h : i ≤ 0) : reserve_go C fuel i p = p := by
  cases fuel with
  | zero => rfl
  | succ f => rw [reserve_go, if_neg (by omega)]

end SVM

namespace SVM

variable {α : Type}

/-- A sample container for witnesses: `ChunkSize = 2`, elements `1,2,3`,
chunk addresses 0 and 1, next free address 2. -/
def v123 : stable_vector Nat := ⟨[⟨0, [1, 2]⟩, ⟨1, [3]⟩]⟩

/-- C2: code bug — the chunk-index invariant ("all chunks except
possibly the last are full") holds for the default-constructed container
but is NOT preserved by `reserve`: with `ChunkSize = 2`, `reserve(3)` on
a default-constructed container appends two empty chunks, so the first
chunk is neither full nor last. -/
theorem reserve_breaks_chunks_inv :
    chunks_inv 2 ((mk_empty : stable_vector Nat)).m_chunks = true ∧
    chunks_inv 2 ((reserve 2 3 (mk_empty : stable_vector Nat) 0).1).m_chunks = false := by
  decide

/-- C3: code bug — `reserve` does not leave `size()` unchanged: with
`ChunkSize = 2`, `reserve(3)` on a default-constructed container (size
0) produces two empty chunks, and the `size()` formula then returns
`(2 - 1) * 2 + 0 = 2`. -/
theorem reserve_changes_size :
    size 2 (mk_empty : stable_vector Nat) = 0 ∧
    size 2 (reserve 2 3 (mk_empty : stable_vector Nat) 0).1 = 2 := by
  decide

/-- C5: `at(i)` raises `std::out_of_range("stable_vector::at")` exactly
when `i ≥ size()`, and for `i < size()` it returns the very element
`operator[](i)` yields; it performs no mutation (modelled as a pure
read, mirroring that the source `at` writes nothing). -/
theorem at_bounds_spec (C : Nat) (v : stable_vector α) (i : Nat) :
    (at' C v i = Except.error "stable_vector::at" ↔ size C v ≤ i) ∧
    (i < size C v → at' C v i = Except.ok (nth C v i)) := by
  constructor
  · unfold at'
    split
    · simp_all
    · simp_all [Nat.not_le]
  · intro h
    unfold at'
    rw [if_neg (by omega)]

/-- C5 witness: concrete check at `v123` (size 3): index 3 raises,
index 1 returns `operator[](1)`. -/
theorem at_bounds_spec_witness :
    ((at' 2 v123 3 = Except.error "stable_vector::at" ↔ size 2 v123 ≤ 3) ∧
      (3 < size 2 v123 → at' 2 v123 3 = Except.ok (nth 2 v123 3))) ∧
    (1 < size 2 v123 → at' 2 v123 1 = Except.ok (nth 2 v123 1)) :=
  ⟨at_bounds_spec 2 v123 3, (at_bounds_spec 2 v123 1).2⟩

/-- C6: `operator==` holds iff the sizes agree and the elements agree at
every logical index, and `operator!=` is its boolean negation. -/
theorem op_eq_spec (C : Nat) [DecidableEq α] (v w : stable_vector α) :
    (op_eq C v w = true ↔
      size C v = size C w ∧ ∀ i, i < size C v → nth C v i = nth C w i) ∧
    op_ne C v w = !op_eq C v w := by
  refine ⟨?_, rfl⟩
  simp [op_eq, List.all_eq_true, List.mem_range]

/-- C7: move construction hands the whole chunk index to the new
container (same size and elements), leaves the source with zero chunks
(`empty() == true`, literally the default-constructed state), and a
`push_back` on the moved-from source behaves exactly like on a fresh
container. -/
theorem move_ctor_spec (C : Nat) (v : stable_vector α) :
    size C (move_ctor v).1 = size C v ∧
    (∀ i, nth C (move_ctor v).1 i = nth C v i) ∧
    elements C (move_ctor v).1 = elements C v ∧
    empty (move_ctor v).2 = true ∧
    (move_ctor v).2 = mk_empty ∧
    (∀ x s, push_back C x (move_ctor v).2 s = push_back C x (mk_empty : stable_vector α) s) :=
  ⟨rfl, fun _ => rfl, rfl, rfl, rfl, fun _ _ => rfl⟩

theorem iter_walk_eq (C : Nat) (v : stable_vector α) :
    ∀ (n it : Nat), it + n = size C v →
      iter_walk C v n it = (List.range' it n).map (nth C v)
  | 0, _, _ => by simp [iter_walk]
  | n + 1, it, h => by
      rw [iter_walk, if_neg (by simp only [end_it]; omega)]
      rw [iter_walk_eq C v n (it + 1) (by omega)]
      simp [List.range', it_deref]

/-- C9: a `begin()`-to-`end()` traversal visits exactly
`v[0], …, v[size()-1]` in order, `cend() - cbegin() == size()`, and
`*(begin() + k)` is the element `v[k]` for every `k < size()`. -/
theorem iterator_spec (C : Nat) (v : stable_vector α) :
    iter_sub (end_it C v) (begin_it v) = (size C v : Int) ∧
    (∀ k, k < size C v → it_deref C v (begin_it v + k) = nth C v k) ∧
    iter_list C v = elements C v := by
  refine ⟨by simp [iter_sub, end_it, begin_it], ?_, ?_⟩
  · intro k _
    simp [it_deref, begin_it]
  · unfold iter_list elements
    rw [iter_walk_eq C v (size C v) 0 (by omega), List.range_eq_range']

/-- C9 witness: the traversal facts instantiated at `v123`. -/
theorem iterator_spec_witness :
    iter_sub (end_it 2 v123) (begin_it v123) = (size 2 v123 : Int) ∧
    it_deref 2 v123 (begin_it v123 + 1) = nth 2 v123 1 ∧
    iter_list 2 v123 = elements 2 v123 :=
  ⟨(iterator_spec 2 v123).1, (iterator_spec 2 v123).2.1 1 (by decide),
    (iterator_spec 2 v123).2.2⟩

/-- C10 counterexample: the claim asserts that after `reserve(n)` with
`n ≥ 1` on a default-constructed container `size()` is still 0; with
`ChunkSize = 2` and `n = 3` the code yields `size() = 2 ≠ 0`. -/
theorem empty_after_reserve_counterexample :
    1 ≤ 3 ∧
    empty (reserve 2 3 (mk_empty : stable_vector Nat) 0).1 = false ∧
    size 2 (reserve 2 3 (mk_empty : stable_vector Nat) 0).1 ≠ 0 := by
  decide

theorem reserve_small_on_empty (C : Nat) (n s : Nat) (hC : 0 < C)
    (h1 : 1 ≤ n) (h2 : n ≤ C) :
    reserve C n (mk_empty : stable_vector α) s = (⟨[⟨s, []⟩]⟩, s + 1) := by
  obtain ⟨m, rfl⟩ : ∃ m, n = m + 1 := ⟨n - 1, by omega⟩
  unfold reserve
  have hcap : capacity C (mk_empty : stable_vector α) = 0 := by
    simp [capacity, mk_empty]
  rw [hcap]
  simp only [Nat.cast_zero, sub_zero, Int.toNat_natCast]
  rw [reserve_go, if_pos (by exact_mod_cast Nat.succ_pos m)]
  rw [reserve_go_of_nonpos]
  · rfl
  · omega

/-- C10 (amended): `empty()` is true exactly when the container holds
zero chunks, equivalently exactly when `capacity() == 0`; and after
`reserve(n)` with `1 ≤ n ≤ ChunkSize` on a default-constructed
container, `empty()` is false even though `size() == 0`, so `empty()`
is not equivalent to `size() == 0`.  (For `n > ChunkSize` the code's
`empty()` is still false but `size()` becomes nonzero.) -/
theorem empty_spec (C : Nat) (v : stable_vector α) (n s : Nat) (hC : 0 < C)
    (h1 : 1 ≤ n) (h2 : n ≤ C) :
    (empty v = true ↔ v.m_chunks = []) ∧
    (empty v = true ↔ capacity C v = 0) ∧
    empty (reserve C n (mk_empty : stable_vector α) s).1 = false ∧
    size C (reserve C n (mk_empty : stable_vector α) s).1 = 0 := by
  refine ⟨?_, ?_, ?_, ?_⟩
  · simp [empty, List.length_eq_zero]
  · simp [empty, capacity, List.length_eq_zero, Nat.mul_eq_zero]
    omega
  · rw [reserve_small_on_empty C n s hC h1 h2]
    rfl
  · rw [reserve_small_on_empty C n s hC h1 h2]
    simp [size, empty]

/-- C10 witness: the amended statement instantiated at `ChunkSize = 2`,
`reserve(2)` on a default-constructed container. -/
theorem empty_spec_witness :
    (empty (v123) = true ↔ v123.m_chunks = []) ∧
    (empty v123 = true ↔ capacity 2 v123 = 0) ∧
    empty (reserve 2 2 (mk_empty : stable_vector Nat) 0).1 = false ∧
    size 2 (reserve 2 2 (mk_empty : stable_vector Nat) 0).1 = 0 :=
  empty_spec 2 v123 2 0 (by decide) (by decide) (by decide)

end SVM

namespace SVM

variable {α : Type}

/-- States reachable from the default constructor by `push_back` calls:
the size is `m`, the chunk-index invariant holds, and the chunk count is
`⌈m / C⌉`. -/
def reach (C : Nat) (v : stable_vector α) (m : Nat) : Prop :=
  size C v = m ∧ chunks_inv C v.m_chunks = true ∧
    v.m_chunks.length = (m + C - 1) / C

theorem push_step (C : Nat) (x : α) (v : stable_vector α) (s m : Nat) (hC : 0 < C)
    (h : reach C v m) : reach C (push_back C x v s).1 (m + 1) := by
  obtain ⟨chunks⟩ := v
  obtain ⟨hs, hinv, hlen⟩ := h
  rcases List.eq_nil_or_concat chunks with rfl | ⟨l, c, rfl⟩
  · have hm : m = 0 := by simpa [size, empty] using hs.symm
    subst hm
    rw [push_back_nil]
    refine ⟨?_, ?_, ?_⟩
    · simp [size, empty]
    · simpa [chunks_inv] using hC
    · have : 0 + 1 + C - 1 = C := by omega
      simp [this, Nat.div_self hC]
  · rw [List.concat_eq_append] at hs hinv hlen ⊢
    rw [size_concat] at hs
    rw [chunks_inv_concat] at hinv
    have hall : (l.all fun c' => c'.data.length == C) = true := by
      simp only [Bool.and_eq_true] at hinv
      exact hinv.1
    have hcle : c.data.length ≤ C := by
      simp only [Bool.and_eq_true, decide_eq_true_eq] at hinv
      exact hinv.2
    by_cases hfull : c.data.length = C
    · rw [push_back_full C x l c s hfull]
      refine ⟨?_, ?_, ?_⟩
      · rw [size_concat]
        have h3 : (l.length + 1) * C = l.length * C + C := by ring
        have h4 : ((⟨s, [x]⟩ : Chunk α)).data.length = 1 := rfl
        have h5 : (l ++ [c]).length = l.length + 1 := by simp
        rw [h4, h5]
        omega
      · rw [chunks_inv_concat]
        simp only [Bool.and_eq_true, decide_eq_true_eq, List.all_append,
          List.all_cons, List.all_nil]
        exact ⟨⟨by simpa using hall, by simp [hfull]⟩, by simp; omega⟩
      · simp only [List.length_append, List.length_singleton] at hlen ⊢
        have h1 : m + 1 + C - 1 = m + C := by omega
        have h2 : m + C = (l.length + 2) * C := by
          have : (l.length + 2) * C = l.length * C + C + C := by ring
          omega
        rw [h1, h2, Nat.mul_div_cancel _ hC]
    · rw [push_back_notfull C x l c s hfull]
      refine ⟨?_, ?_, ?_⟩
      · rw [size_concat]
        have h4 : ((⟨c.id, c.data ++ [x]⟩ : Chunk α)).data.length = c.data.length + 1 := by
          simp
        rw [h4]
        omega
      · rw [chunks_inv_concat]
        simp only [Bool.and_eq_true, decide_eq_true_eq]
        refine ⟨hall, ?_⟩
        simp only [List.length_append, List.length_singleton]
        omega
      · simp only [List.length_append, List.length_singleton] at hlen ⊢
        have h1 : m + 1 + C - 1 = m + C := by omega
        have h2 : m + C = c.data.length + C * (l.length + 1) := by
          have : C * (l.length + 1) = l.length * C + C := by ring
          omega
        rw [h1, h2, Nat.add_mul_div_left _ _ hC,
          Nat.div_eq_of_lt (by omega)]
        omega

theorem pushList_reach (C : Nat) (hC : 0 < C) :
    ∀ (xs : List α) (v : stable_vector α) (s m : Nat), reach C v m →
      reach C (pushList C xs v s).1 (m + xs.length)
  | [], v, s, m, h => by simpa [pushList] using h
  | x :: rest, v, s, m, h => by
      rw [pushList]
      have h1 := push_step C x v s m hC h
      have h2 := pushList_reach C hC rest (push_back C x v s).1 (push_back C x v s).2
        (m + 1) h1
      simp only [List.length_cons]
      have : m + (rest.length + 1) = m + 1 + rest.length := by omega
      rw [this]
      exact h2

/-- C4: starting from a default-constructed container, `k` `push_back`
calls yield `size() = k` and `capacity() = ⌈k / ChunkSize⌉ × ChunkSize`
(0 when `k = 0`). -/
theorem push_back_size_capacity (C : Nat) (xs : List α) (s : Nat) (hC : 0 < C) :
    size C (pushList C xs (mk_empty : stable_vector α) s).1 = xs.length ∧
    capacity C (pushList C xs (mk_empty : stable_vector α) s).1 =
      ((xs.length + C - 1) / C) * C := by
  have h0 : reach C (mk_empty : stable_vector α) 0 := by
    refine ⟨rfl, rfl, ?_⟩
    simp [mk_empty]
    exact (Nat.div_eq_of_lt (by omega)).symm
  have h := pushList_reach C hC xs (mk_empty : stable_vector α) s 0 h0
  obtain ⟨hs, _, hlen⟩ := h
  constructor
  · simpa using hs
  · rw [capacity, hlen]
    simp

/-- C4 witness: five pushes with `ChunkSize = 2` give size 5 and
capacity `⌈5/2⌉ × 2 = 6`. -/
theorem push_back_size_capacity_witness :
    size 2 (pushList 2 [10, 20, 30, 40, 50] (mk_empty : stable_vector Nat) 0).1 =
      [10, 20, 30, 40, 50].length ∧
    capacity 2 (pushList 2 [10, 20, 30, 40, 50] (mk_empty : stable_vector Nat) 0).1 =
      (([10, 20, 30, 40, 50].length + 2 - 1) / 2) * 2 :=
  push_back_size_capacity 2 [10, 20, 30, 40, 50] 0 (by decide)

end SVM

namespace SVM

variable {α : Type}

/-- Every chunk respects the chunk type's capacity: `static_vector<T,
ChunkSize>` can never hold more than `ChunkSize` elements, so this is an
invariant of every representable C++ container state (even the states
the buggy `reserve` produces). -/
def wf_chunks (C : Nat) (l : List (Chunk α)) : Bool :=
  l.all (fun c => c.data.length ≤ C)

/-- `l'` extends `l` chunk-wise the way growth does: no existing chunk
handle is removed, every chunk other than the (original) last one is
untouched, and the original last chunk keeps its address (`id`) and its
existing elements, gaining elements only at its end.  This is exactly
what `add_chunk` (appends a handle) and `static_vector::push_back`
(appends in place into the tail chunk) can do. -/
def ext_chunks (l l' : List (Chunk α)) : Prop :=
  l.length ≤ l'.length ∧
  (∀ j, j + 1 < l.length → l'.get? j = l.get? j) ∧
  (∀ j, j + 1 = l.length → ∃ c c' t, l.get? j = some c ∧ l'.get? j = some c' ∧
    c'.id = c.id ∧ c'.data = c.data ++ t)

theorem ext_chunks_trans {l₁ l₂ l₃ : List (Chunk α)}
    (h12 : ext_chunks l₁ l₂) (h23 : ext_chunks l₂ l₃) : ext_chunks l₁ l₃ := by
  obtain ⟨hl12, hm12, he12⟩ := h12
  obtain ⟨hl23, hm23, he23⟩ := h23
  refine ⟨le_trans hl12 hl23, fun j hj => ?_, fun j hj => ?_⟩
  · rw [hm23 j (by omega), hm12 j hj]
  · obtain ⟨c, c', t, hc, hc', hid, hdata⟩ := he12 j hj
    rcases Nat.lt_or_ge (j + 1) l₂.length with h2 | h2
    · exact ⟨c, c', t, hc, by rw [hm23 j h2, hc'], hid, hdata⟩
    · have hj2 : j + 1 = l₂.length := by omega
      obtain ⟨d, d', t', hd, hd', hid', hdata'⟩ := he23 j hj2
      rw [hc'] at hd
      cases hd
      exact ⟨c, d', t ++ t', hc, hd', by rw [hid', hid],
        by rw [hdata', hdata, List.append_assoc]⟩

theorem push_back_ext (C : Nat) (x : α) (v : stable_vector α) (s : Nat) :
    ext_chunks v.m_chunks (push_back C x v s).1.m_chunks := by
  obtain ⟨chunks⟩ := v
  rcases List.eq_nil_or_concat chunks with rfl | ⟨l, c, rfl⟩
  · exact ⟨by simp, fun j hj => absurd hj (by simp),
      fun j hj => absurd hj (by simp)⟩
  · rw [List.concat_eq_append]
    have hlen : (l ++ [c]).length = l.length + 1 := by simp
    by_cases hfull : c.data.length = C
    · rw [push_back_full C x l c s hfull]
      refine ⟨by simp, fun j hj => ?_, fun j hj => ?_⟩
      · rw [hlen] at hj
        exact List.get?_append (by rw [hlen]; omega)
      · rw [hlen] at hj
        have hj' : j = l.length := by omega
        subst hj'
        refine ⟨c, c, [], List.get?_concat_length l c, ?_, rfl, by simp⟩
        rw [List.get?_append (by rw [hlen]; omega)]
        exact List.get?_concat_length l c
    · rw [push_back_notfull C x l c s hfull]
      refine ⟨by simp, fun j hj => ?_, fun j hj => ?_⟩
      · rw [hlen] at hj
        rw [List.get?_append (show j < l.length by omega),
          List.get?_append (show j < l.length by omega)]
      · rw [hlen] at hj
        have hj' : j = l.length := by omega
        subst hj'
        exact ⟨c, ⟨c.id, c.data ++ [x]⟩, [x], List.get?_concat_length l c,
          List.get?_concat_length l _, rfl, rfl⟩

theorem pushList_ext (C : Nat) :
    ∀ (xs : List α) (v : stable_vector α) (s : Nat),
      ext_chunks v.m_chunks (pushList C xs v s).1.m_chunks
  | [], v, s => by
      rw [pushList]
      refine ⟨le_refl _, fun j _ => rfl, fun j hj => ?_⟩
      have hjlt : j < v.m_chunks.length := by omega
      exact ⟨v.m_chunks.get ⟨j, hjlt⟩, v.m_chunks.get ⟨j, hjlt⟩, [],
        List.get?_eq_get hjlt, List.get?_eq_get hjlt, rfl, by simp⟩
  | x :: rest, v, s => by
      rw [pushList]
      exact ext_chunks_trans (push_back_ext C x v s)
        (pushList_ext C rest (push_back C x v s).1 (push_back C x v s).2)

theorem nth_slot_of_ext (C : Nat) (v w : stable_vector α) (i : Nat) (hC : 0 < C)
    (hwf : wf_chunks C v.m_chunks = true)
    (hext : ext_chunks v.m_chunks w.m_chunks)
    (hi : i < size C v) :
    slot C w i = slot C v i ∧ nth C w i = nth C v i := by
  obtain ⟨chunks⟩ := v
  rcases List.eq_nil_or_concat chunks with rfl | ⟨l, c, rfl⟩
  · exact absurd hi (by simp [size, empty])
  · rw [List.concat_eq_append] at hwf hext hi ⊢
    rw [size_concat] at hi
    have hcle : c.data.length ≤ C := by
      have := List.all_eq_true.mp hwf c (by simp)
      simpa using this
    have hdm := Nat.div_add_mod i C
    have hmod : i % C < C := Nat.mod_lt _ hC
    have hmul : (l.length + 1) * C = l.length * C + C := by ring
    have hidx : i / C < l.length + 1 := by
      rw [Nat.div_lt_iff_lt_mul hC]
      omega
    have hlen : (l ++ [c]).length = l.length + 1 := by simp
    have hlen2 : ({ m_chunks := l ++ [c] } : stable_vector α).m_chunks.length =
        l.length + 1 := by simp
    rcases Nat.lt_or_ge (i / C) l.length with hjl | hjl
    · -- a chunk strictly before the original tail chunk: untouched
      have hsame : w.m_chunks.get? (i / C) = (l ++ [c]).get? (i / C) :=
        hext.2.1 (i / C) (by omega)
      exact ⟨by rw [slot, slot, hsame], by rw [nth, nth, hsame]⟩
    · -- the original tail chunk: its existing elements are a stable prefix
      have hj' : i / C = l.length := by omega
      obtain ⟨c₀, c₀', t, hc₀, hc₀', hid, hdata⟩ :=
        hext.2.2 (i / C) (by omega)
      have hc₀c : c₀ = c := by
        rw [hj', List.get?_concat_length l c] at hc₀
        cases hc₀
        rfl
      subst hc₀c
      have hoff : i % C < c₀.data.length := by
        have hmc : C * (i / C) = C * l.length := by rw [hj']
        have hcm : C * l.length = l.length * C := by ring
        omega
      constructor
      · rw [slot, slot, hc₀, hc₀']
        simp [hid]
      · rw [nth, nth, hc₀, hc₀']
        show c₀'.data.get? (i % C) = c₀.data.get? (i % C)
        rw [hdata, List.get?_append hoff]

/-- C1: for every container (any state whose chunks respect the chunk
type's capacity bound, which `static_vector` guarantees for every
representable C++ state) and any element at logical index `i < size()`,
any number of further `push_back` calls leaves both the slot identity
(chunk address and in-chunk offset) and the stored value at `i`
unchanged. -/
theorem push_back_stability (C : Nat) (v : stable_vector α) (xs : List α)
    (s i : Nat) (hC : 0 < C) (hwf : wf_chunks C v.m_chunks = true)
    (hi : i < size C v) :
    slot C (pushList C xs v s).1 i = slot C v i ∧
    nth C (pushList C xs v s).1 i = nth C v i :=
  nth_slot_of_ext C v (pushList C xs v s).1 i hC hwf (pushList_ext C xs v s) hi

/-- C1 witness: with `ChunkSize = 2` and the container `{1,2,3}`, the
slot and value of index 1 survive three further pushes. -/
theorem push_back_stability_witness :
    slot 2 (pushList 2 [4, 5, 6] v123 2).1 1 = slot 2 v123 1 ∧
    nth 2 (pushList 2 [4, 5, 6] v123 2).1 1 = nth 2 v123 1 :=
  push_back_stability 2 v123 [4, 5, 6] 2 1 (by decide) (by decide) (by decide)

end SVM

namespace SVM

variable {α : Type}

theorem clone_chunks_spec :
    ∀ (l : List (Chunk α)) (s : Nat),
      (clone_chunks l s).1.map Chunk.data = l.map Chunk.data ∧
      (clone_chunks l s).2 = s + l.length ∧
      ∀ c ∈ (clone_chunks l s).1, s ≤ c.id ∧ c.id < s + l.length
  | [], s => by simp [clone_chunks]
  | ch :: rest, s => by
      obtain ⟨h1, h2, h3⟩ := clone_chunks_spec rest (s + 1)
      refine ⟨?_, ?_, ?_⟩
      · simp only [clone_chunks, List.map_cons, h1]
      · simp only [clone_chunks, h2, List.length_cons]
        omega
      · intro c hc
        simp only [clone_chunks, List.mem_cons] at hc
        rcases hc with rfl | hc
        · simp only [List.length_cons]
          omega
        · have := h3 c hc
          simp only [List.length_cons]
          omega

theorem getLastD_data (d : Chunk α) :
    ∀ l : List (Chunk α), (l.getLastD d).data = (l.map Chunk.data).getLastD d.data
  | [] => rfl
  | a :: t => by
      rw [List.getLastD_cons, List.map_cons, List.getLastD_cons]
      exact getLastD_data a t

theorem size_of_map_data (C : Nat) (v w : stable_vector α)
    (h : v.m_chunks.map Chunk.data = w.m_chunks.map Chunk.data) :
    size C v = size C w := by
  have hlen : v.m_chunks.length = w.m_chunks.length := by
    have := congrArg List.length h
    simpa using this
  have hlast : (v.m_chunks.getLastD ⟨0, []⟩).data =
      (w.m_chunks.getLastD ⟨0, []⟩).data := by
    rw [getLastD_data, getLastD_data, h]
  rw [size, size, empty, empty, hlen, hlast]

theorem nth_of_map_data (C : Nat) (v w : stable_vector α)
    (h : v.m_chunks.map Chunk.data = w.m_chunks.map Chunk.data) (i : Nat) :
    nth C v i = nth C w i := by
  have hget : (v.m_chunks.get? (i / C)).map Chunk.data =
      (w.m_chunks.get? (i / C)).map Chunk.data := by
    rw [← List.get?_map, ← List.get?_map, h]
  rw [nth, nth]
  cases hv : v.m_chunks.get? (i / C) with
  | none =>
      rw [hv] at hget
      cases hw : w.m_chunks.get? (i / C) with
      | none => rfl
      | some cw => rw [hw] at hget; simp at hget
  | some cv =>
      rw [hv] at hget
      cases hw : w.m_chunks.get? (i / C) with
      | none => rw [hw] at hget; simp at hget
      | some cw =>
          rw [hw] at hget
          have hd : cv.data = cw.data := by simpa using hget
          show cv.data.get? (i % C) = cw.data.get? (i % C)
          rw [hd]

theorem append_back_ids (x : α) :
    ∀ l : List (Chunk α), (append_back x l).map Chunk.id = l.map Chunk.id
  | [] => rfl
  | [_] => rfl
  | a :: b :: t => by
      have ih := append_back_ids x (b :: t)
      simp only [append_back, List.map_cons] at ih ⊢
      rw [ih]

theorem push_back_ids (C : Nat) (x : α) (v : stable_vector α) (s : Nat) :
    (∀ a ∈ chunk_ids (push_back C x v s).1, a ∈ chunk_ids v ∨ s ≤ a) ∧
    s ≤ (push_back C x v s).2 := by
  unfold push_back chunk_ids
  by_cases h : needs_chunk C v = true
  · simp only [h, if_pos, add_chunk]
    constructor
    · intro a ha
      rw [append_back_ids] at ha
      simp only [List.map_append, List.mem_append, List.map_cons,
        List.map_nil, List.mem_singleton] at ha
      rcases ha with ha | ha
      · exact Or.inl ha
      · omega
    · simp
  · simp only [Bool.not_eq_true] at h
    simp only [h, Bool.false_eq_true, if_false]
    constructor
    · intro a ha
      rw [append_back_ids] at ha
      exact Or.inl ha
    · exact le_refl s

theorem pushList_ids (C : Nat) :
    ∀ (xs : List α) (v : stable_vector α) (s : Nat),
      (∀ a ∈ chunk_ids (pushList C xs v s).1, a ∈ chunk_ids v ∨ s ≤ a) ∧
      s ≤ (pushList C xs v s).2
  | [], v, s => by
      rw [pushList]
      exact ⟨fun a ha => Or.inl ha, le_refl s⟩
  | x :: rest, v, s => by
      rw [pushList]
      obtain ⟨h1, h2⟩ := push_back_ids C x v s
      obtain ⟨h3, h4⟩ :=
        pushList_ids C rest (push_back C x v s).1 (push_back C x v s).2
      constructor
      · intro a ha
        rcases h3 a ha with ha' | ha'
        · rcases h1 a ha' with h | h
          · exact Or.inl h
          · exact Or.inr h
        · exact Or.inr (le_trans h2 ha')
      · exact le_trans h2 h4

/-- C8: copy construction (and copy assignment, which reduces to it via
copy-and-swap) deep-clones every chunk: the copy has the same size and
elements, but all of its chunk addresses are fresh — disjoint from the
source's — and they stay disjoint under any further `push_back`s applied
to the copy, so no mutation of the copy can touch the source's storage
(the model is value-semantic, so the source value is unchanged by
construction). -/
theorem copy_independence (C : Nat) (v : stable_vector α) (s s' : Nat)
    (xs : List α) (hsv : supply_ok v s = true) (hs' : (copy_ctor v s).2 ≤ s') :
    size C (copy_ctor v s).1 = size C v ∧
    (∀ i, nth C (copy_ctor v s).1 i = nth C v i) ∧
    (∀ a ∈ chunk_ids (copy_ctor v s).1, a ∉ chunk_ids v) ∧
    (∀ a ∈ chunk_ids (pushList C xs (copy_ctor v s).1 s').1, a ∉ chunk_ids v) ∧
    (∀ b, op_assign b v s = copy_ctor v s) := by
  obtain ⟨hdata, hsup, hids⟩ := clone_chunks_spec v.m_chunks s
  have hvlt : ∀ a ∈ chunk_ids v, a < s := by
    intro a ha
    simp only [chunk_ids, List.mem_map] at ha
    obtain ⟨c, hc, rfl⟩ := ha
    have := List.all_eq_true.mp hsv c hc
    simpa using this
  have hcopy_ids : ∀ a ∈ chunk_ids (copy_ctor v s).1, s ≤ a := by
    intro a ha
    simp only [chunk_ids, copy_ctor, List.mem_map] at ha
    obtain ⟨c, hc, rfl⟩ := ha
    exact (hids c hc).1
  refine ⟨?_, ?_, ?_, ?_, fun _ => rfl⟩
  · exact size_of_map_data C _ v hdata
  · exact fun i => nth_of_map_data C _ v hdata i
  · intro a ha hav
    exact absurd (hvlt a hav) (by have := hcopy_ids a ha; omega)
  · intro a ha hav
    have hs2 : (copy_ctor v s).2 = s + v.m_chunks.length := by
      simp only [copy_ctor]
      exact hsup
    rcases (pushList_ids C xs (copy_ctor v s).1 s').1 a ha with h | h
    · exact absurd (hvlt a hav) (by have := hcopy_ids a h; omega)
    · exact absurd (hvlt a hav) (by omega)

/-- C8 witness: with `ChunkSize = 2`, source `{1,2,3}` (chunk addresses
0, 1; supply 2), its copy uses addresses 2, 3, and a further push on the
copy (supply 4) still shares no chunk address with the source. -/
theorem copy_independence_witness :
    size 2 (copy_ctor v123 2).1 = size 2 v123 ∧
    (∀ i, nth 2 (copy_ctor v123 2).1 i = nth 2 v123 i) ∧
    (∀ a ∈ chunk_ids (copy_ctor v123 2).1, a ∉ chunk_ids v123) ∧
    (∀ a ∈ chunk_ids (pushList 2 [7] (copy_ctor v123 2).1 4).1,
      a ∉ chunk_ids v123) ∧
    (∀ b, op_assign b v123 2 = copy_ctor v123 2) :=
  copy_independence 2 v123 2 4 [7] (by decide) (by decide)

end SVM
